import Mathlib

/-!
Verification of the asynchronous reply-generation orchestrator of the
simple-chat backend (src/backend/main.py): the commit/failure/cancel state
machine of `run_assistant_reply`, the bounded commit retry loop, the
pending-generation registry, and the pure post-processing pass
`_fix_missing_upload_links`.

Python strings are modelled as `List Char`; the filesystem snapshot under
`UPLOAD_ROOT` is modelled as a list of existing files (path relative to the
upload root, in posix form, plus an mtime).  All definitions are executable
and are translated from the source, not from the specification text.
-/

namespace SimpleChat

/-- Python `str`, modelled as a list of characters. -/
abbrev Str := List Char

/-! ## Generic string helpers (Python `in`, `str.replace`, `str.rstrip`, ...) -/

/-- `containsSub pat s` is Python `pat in s`: `pat` occurs contiguously in `s`. -/
def containsSub (pat : Str) : Str → Bool
  | [] => pat.isEmpty
  | c :: rest => pat.isPrefixOf (c :: rest) || containsSub pat rest

/-- Split at the first occurrence of `pat`: Python `s.split(pat, 1)` when `pat`
occurs, returning the part before and the part after the separator. -/
def splitFirst (pat : Str) : Str → Option (Str × Str)
  | [] => if pat.isEmpty then some ([], []) else none
  | c :: rest =>
    if pat.isPrefixOf (c :: rest) then some ([], (c :: rest).drop pat.length)
    else
      match splitFirst pat rest with
      | some (b, a) => some (c :: b, a)
      | none => none

/-- One fuel-indexed step of Python `str.replace` (all occurrences,
left to right, non-overlapping).  The fuel is the length of the subject
string; every recursive call consumes at least one character of it. -/
def replaceAllAux (pat rep : Str) : Nat → Str → Str
  | 0, s => s
  | _ + 1, [] => []
  | fuel + 1, c :: rest =>
    if !pat.isEmpty && pat.isPrefixOf (c :: rest) then
      rep ++ replaceAllAux pat rep fuel ((c :: rest).drop pat.length)
    else
      c :: replaceAllAux pat rep fuel rest

/-- Python `s.replace(pat, rep)` (for the nonempty patterns used in the code). -/
def replaceAll (pat rep s : Str) : Str :=
  replaceAllAux pat rep s.length s

/-- Python `raw.rstrip(").,;]")` from `_fix_missing_upload_links`. -/
def pyRstrip (raw : Str) : Str :=
  (raw.reverse.dropWhile (fun c => c = ')' || c = '.' || c = ',' || c = ';' || c = ']')).reverse

/-- ASCII whitespace as matched by the regex class `\s` on the texts involved. -/
def pyIsSpace (c : Char) : Bool :=
  c = ' ' || c = '\t' || c = '\n' || c = '\r' || c = '\x0b' || c = '\x0c'

/-- Characters allowed in the regex character class `[^\s)\]]`. -/
def refChar (c : Char) : Bool :=
  !(pyIsSpace c || c = ')' || c = ']')

/-- Deduplicate keeping the first occurrence of each element (the model of
iterating over `set(cleaned)`; the processing order is made explicit). -/
def dedupAux (seen : List Str) : List Str → List Str
  | [] => []
  | x :: rest =>
    if seen.contains x then dedupAux seen rest
    else x :: dedupAux (x :: seen) rest

/-- First-occurrence deduplication of the cleaned match list. -/
def dedupFirst (l : List Str) : List Str := dedupAux [] l

/-! ## The three reference regexes of `_fix_missing_upload_links`

`matchers` below model `re.findall` for
`(?:\.\/)?backend\/chat_uploads\/[^\s)\]]+`, `\/chat_uploads\/[^\s)\]]+` and
`https?:\/\/[^\s)\]]+\/chat_uploads\/[^\s)\]]+`: scan left to right, at each
position emit the (greedy) match starting there if any, and resume after it. -/

/-- Try pattern 1 at the head of `s`: optional `./`, then the literal
`backend/chat_uploads/`, then one or more `refChar`s (greedy). -/
def tryPat1 (s : Str) : Option (Str × Str) :=
  let lead : Str :=
    if ("./backend/chat_uploads/".data).isPrefixOf s then "./backend/chat_uploads/".data
    else if ("backend/chat_uploads/".data).isPrefixOf s then "backend/chat_uploads/".data
    else []
  if lead.isEmpty then none
  else
    let rest := s.drop lead.length
    let run := rest.takeWhile refChar
    if run.isEmpty then none
    else some (lead ++ run, rest.drop run.length)

/-- Try pattern 2 at the head of `s`: the literal `/chat_uploads/` followed by
one or more `refChar`s (greedy). -/
def tryPat2 (s : Str) : Option (Str × Str) :=
  if ("/chat_uploads/".data).isPrefixOf s then
    let rest := s.drop ("/chat_uploads/".data).length
    let run := rest.takeWhile refChar
    if run.isEmpty then none
    else some ("/chat_uploads/".data ++ run, rest.drop run.length)
  else none

/-- Does `s` contain an occurrence of `/chat_uploads/` that starts at index at
least one and ends before the last character?  This is the condition for
`[^\s)\]]+\/chat_uploads\/[^\s)\]]+` to match a whole run of `refChar`s. -/
def hasInnerUploads (s : Str) : Bool :=
  match s with
  | [] => false
  | _ :: rest => innerUploadsAux rest
where
  /-- Is there an occurrence of `/chat_uploads/` in `s` followed by one more
  character? -/
  innerUploadsAux : Str → Bool
    | [] => false
    | c :: rest =>
      (("/chat_uploads/".data).isPrefixOf (c :: rest) &&
        decide (("/chat_uploads/".data).length < (c :: rest).length)) ||
      innerUploadsAux rest

/-- Try pattern 3 at the head of `s`: `http` or `https`, `://`, then a greedy
run of `refChar`s that contains `/chat_uploads/` strictly inside it. -/
def tryPat3 (s : Str) : Option (Str × Str) :=
  let lead : Str :=
    if ("https://".data).isPrefixOf s then "https://".data
    else if ("http://".data).isPrefixOf s then "http://".data
    else []
  if lead.isEmpty then none
  else
    let rest := s.drop lead.length
    let run := rest.takeWhile refChar
    if hasInnerUploads run then some (lead ++ run, rest.drop run.length)
    else none

/-- Left-to-right scan emitting non-overlapping matches of one matcher, as
`re.findall` does; the fuel is the length of the text. -/
def scanAux (tryM : Str → Option (Str × Str)) : Nat → Str → List Str
  | 0, _ => []
  | _ + 1, [] => []
  | fuel + 1, c :: rest =>
    match tryM (c :: rest) with
    | some (m, after) => m :: scanAux tryM fuel after
    | none => scanAux tryM fuel rest

/-- `re.findall(pattern, text)` for one of the three matchers. -/
def findAll (tryM : Str → Option (Str × Str)) (text : Str) : List Str :=
  scanAux tryM text.length text

/-- The concatenated, `rstrip`-cleaned match lists of the three patterns, in
the order the source extends `matches`. -/
def cleanedMatches (text : Str) : List Str :=
  (findAll tryPat1 text ++ findAll tryPat2 text ++ findAll tryPat3 text).map pyRstrip

/-- The deduplicated reference set, in first-occurrence order (the model's
canonical iteration order for Python's `set(cleaned)`). -/
def matchSet (text : Str) : List Str := dedupFirst (cleanedMatches text)

/-! ## Paths and the filesystem snapshot -/

/-- One existing file under `UPLOAD_ROOT`: its path relative to the upload
root in posix form, and its modification time. -/
structure FSFile where
  path : Str
  mtime : Nat
deriving DecidableEq

/-- The final path component (`Path.name`) of a relative posix path. -/
def pathName (rel : Str) : Str :=
  (rel.reverse.takeWhile (fun c => c ≠ '/')).reverse

/-- The parent of a relative posix path, `[]` for a file directly under the
upload root (`Path.parent` relative to `UPLOAD_ROOT`). -/
def pathParent (rel : Str) : Str :=
  if (pathName rel).length = rel.length then []
  else rel.take (rel.length - (pathName rel).length - 1)

/-- The index of the last `.` in a file name, if any. -/
def lastDotIdx (name : Str) : Option Nat :=
  (name.reverse.findIdx? (fun c => c = '.')).map (fun j => name.length - 1 - j)

/-- `Path.suffix` of a file name: the part from the last dot on, unless the
dot is the first or last character (CPython's rule). -/
def nameSuffix (name : Str) : Str :=
  match lastDotIdx name with
  | some i => if 0 < i ∧ i < name.length - 1 then name.drop i else []
  | none => []

/-- `Path.stem` of a file name: the name with its suffix removed. -/
def nameStem (name : Str) : Str :=
  name.take (name.length - (nameSuffix name).length)

/-- Does `name` match the glob pattern `stem ++ "_*" ++ sfx` (with `*`
matching any, possibly empty, run of characters)? -/
def globNameMatch (stem sfx name : Str) : Bool :=
  (stem ++ ['_']).isPrefixOf name && sfx.isSuffixOf (name.drop (stem.length + 1))

/-- `current_path.exists()`: is `rel` the path of a file in the snapshot? -/
def fileExists (fs : List FSFile) (rel : Str) : Bool :=
  fs.any (fun f => f.path == rel)

/-- `current_path.parent.glob(f"{stem}_*{suffix}")`: the files in the same
directory as `rel` whose name matches the uniquifying-suffix pattern. -/
def globCandidates (fs : List FSFile) (rel : Str) : List FSFile :=
  fs.filter (fun f =>
    pathParent f.path == pathParent rel &&
      globNameMatch (nameStem (pathName rel)) (nameSuffix (pathName rel)) (pathName f.path))

/-- One comparison step of Python `max(..., key=mtime)`: keep the current
best unless the next element is strictly larger. -/
def pickStep (best g : FSFile) : FSFile :=
  if best.mtime < g.mtime then g else best

/-- `max(candidates, key=lambda path: path.stat().st_mtime)`; `none` on the
empty list (Python raises there, but the source guards with
`if not candidates`). -/
def pickLatest : List FSFile → Option FSFile
  | [] => none
  | f :: rest => some (rest.foldl pickStep f)

/-! ## Parsing one raw reference -/

/-- `urlparse(raw).path`: the part after the authority (first `/` after
`://`) and before any `?` or `#`.  If `raw` has no `://`, the path is the
whole string up to `?` or `#`. -/
def urlPath (raw : Str) : Str :=
  let afterScheme :=
    match splitFirst ("://".data) raw with
    | some (_, a) => a.dropWhile (fun c => c ≠ '/')
    | none => raw
  afterScheme.takeWhile (fun c => c ≠ '?' && c ≠ '#')

/-- The branch cascade of `_fix_missing_upload_links` that computes the
`(prefix, rel)` pair of one raw reference; `none` models `continue`
(no branch matched, or the relative part is empty). -/
def parseRef (raw : Str) : Option (Str × Str) :=
  let up : Str := "/chat_uploads/".data
  let result : Option (Str × Str) :=
    if ("http".data).isPrefixOf raw then
      if !containsSub up (urlPath raw) then none
      else
        match splitFirst up (urlPath raw), splitFirst up raw with
        | some (_, rel), some (b, _) => some (b ++ up, rel)
        | _, _ => none
    else if containsSub ("backend/chat_uploads/".data) raw then
      match splitFirst ("backend/chat_uploads/".data) raw with
      | some (b, rel) => some (b ++ "backend/chat_uploads/".data, rel)
      | none => none
    else if containsSub up raw then
      match splitFirst up raw with
      | some (b, rel) => some (b ++ up, rel)
      | none => none
    else if containsSub ("chat_uploads/".data) raw then
      match splitFirst ("chat_uploads/".data) raw with
      | some (b, rel) => some (b ++ "chat_uploads/".data, rel)
      | none => none
    else none
  match result with
  | some (_, []) => none
  | r => r

/-- The body of the per-reference loop: if the referenced file is missing and
a uniquely-suffixed sibling exists, the replacement string
`prefix ++ new_rel`; `none` when the loop body would `continue`. -/
def refRewrite (fs : List FSFile) (raw : Str) : Option Str :=
  match parseRef raw with
  | none => none
  | some (pre, rel) =>
    if fileExists fs rel then none
    else
      match pickLatest (globCandidates fs rel) with
      | none => none
      | some latest => some (pre ++ latest.path)

/-- Fold of the per-reference loop over the (ordered) reference set:
each active reference rewrites all its occurrences in the running text. -/
def applyRaws (fs : List FSFile) : List Str → Str → Str
  | [], text => text
  | raw :: rest, text =>
    match refRewrite fs raw with
    | none => applyRaws fs rest text
    | some rep => applyRaws fs rest (replaceAll raw rep text)

/-- `_fix_missing_upload_links` with an explicit iteration order for the
reference set (Python iterates `set(cleaned)`, whose order is fixed only
within one interpreter process). -/
def fixLinksOrd (fs : List FSFile) (raws : List Str) (text : Str) : Str :=
  if text.isEmpty then text else applyRaws fs raws text

/-- `_fix_missing_upload_links(text)` against the snapshot `fs`, with the
reference set iterated in first-occurrence order. -/
def fix_missing_upload_links (fs : List FSFile) (text : Str) : Str :=
  fixLinksOrd fs (matchSet text) text

/-- A reference of the text is inert when the loop body of
`_fix_missing_upload_links` would `continue` on it: it does not parse, or it
resolves to an existing file, or it has no uniquely-suffixed candidate. -/
def rawInert (fs : List FSFile) (raw : Str) : Bool :=
  (refRewrite fs raw).isNone

/-! ## The message/conversation store state

The slice of the persistence store that `run_assistant_reply` and
`stop_generation` touch for one assistant reply: the reply's message row, its
`message_file` rows, and the owning conversation's `updated_at` stamp.
Timestamps are abstract `Nat`s. -/

/-- The `status` column of a message row. -/
inductive MsgStatus
  | pending
  | completed
  | failed
  | cancelled
deriving DecidableEq

/-- The `sender_type` column of a message row. -/
inductive SenderType
  | user
  | assistant
deriving DecidableEq

/-- The mutable fields of the assistant reply's message row. -/
structure MessageRow where
  sender : SenderType
  content : Str
  status : MsgStatus
  stoppedAt : Option Nat
deriving DecidableEq

/-- The store state for one reply: the message row (`none` when the row was
deleted), its generated-file paths, and the conversation's `updated_at`. -/
structure StoreState where
  msg : Option MessageRow
  msgFiles : List Str
  convUpdatedAt : Nat
deriving DecidableEq

/-- `DOWNLOAD_LINKS_PLACEHOLDER`. -/
def DOWNLOAD_LINKS_PLACEHOLDER : Str := "__DOWNLOAD_LINKS__".data

/-- One download-link line, `- /chat_uploads/<file_path>`. -/
def linkLine (filePath : Str) : Str := "- /chat_uploads/".data ++ filePath

/-- Python `"\n".join(lines)`. -/
def joinNl : List Str → Str
  | [] => []
  | [x] => x
  | x :: y :: rest => x ++ '\n' :: joinNl (y :: rest)

/-- The link-splicing step of the commit (main.py lines 1173-1183): with
saved files, substitute the placeholder by the link lines, or append them
after the text; with no saved files, strip the placeholder line. -/
def buildFinalText (savedPaths : List Str) (replyText : Str) : Str :=
  if !savedPaths.isEmpty then
    let links := joinNl (savedPaths.map linkLine)
    if containsSub DOWNLOAD_LINKS_PLACEHOLDER replyText then
      replaceAll DOWNLOAD_LINKS_PLACEHOLDER links replyText
    else
      replyText ++ "\n下載連結:\n".data ++ links
  else
    replaceAll ('\n' :: DOWNLOAD_LINKS_PLACEHOLDER) [] replyText

/-- The commit step of `run_assistant_reply` (lines 1161-1196): re-read the
persisted status and skip everything unless it is still `pending`; otherwise
persist the generated files, splice the download links, repair stale links
against the post-persist snapshot `fs`, write the completed row and touch the
conversation.  `savedPaths` are the uniquified relative paths that
`persist_assistant_files` produced. -/
def commit_step (fs : List FSFile) (st : StoreState) (replyText : Str)
    (savedPaths : List Str) (now : Nat) : StoreState :=
  match st.msg with
  | none => st
  | some m =>
    if m.status = .pending then
      let finalText := fix_missing_upload_links fs (buildFinalText savedPaths replyText)
      { msg := some { m with content := finalText, status := .completed, stoppedAt := none },
        msgFiles := st.msgFiles ++ savedPaths,
        convUpdatedAt := now }
    else st

/-- The failure path of `run_assistant_reply` (lines 1199-1218): if the row
still exists and is still `pending`, write `status = failed` with the partial
content (or the fallback string when it is empty) and a `stopped_at` stamp;
otherwise leave the store untouched.  The conversation is not touched. -/
def failure_step (st : StoreState) (now : Nat) : StoreState :=
  match st.msg with
  | none => st
  | some m =>
    if m.status = .pending then
      let fallback := if m.content.isEmpty then "Response failed.".data else m.content
      { st with msg := some { m with content := fallback, status := .failed, stoppedAt := some now } }
    else st

/-- An exception reaching the outer handler of `run_assistant_reply`:
either the cancellation signal (`asyncio.CancelledError`) or any other
exception with its diagnostic. -/
inductive SupervisorExc
  | cancelSignal
  | failure (diag : Str)
deriving DecidableEq

/-- The handler cascade of `run_assistant_reply`: the cancellation signal is
re-raised untouched (`Except.error`), every other exception runs the failure
path. -/
def handleSupervisorExc (st : StoreState) (now : Nat) :
    SupervisorExc → Except Unit StoreState
  | .cancelSignal => .error ()
  | .failure _ => .ok (failure_step st now)

/-- `POST /api/messages/{id}/stop` (lines 1944-1967), restricted to its store
effect: 404 when the row is gone, 400 unless it is an assistant row that is
still `pending`; otherwise write `status = cancelled` keeping the partial
content (or the fallback string) and touch the conversation.  `Except.error`
models the raised `HTTPException`. -/
def stop_generation (st : StoreState) (now : Nat) : Except Unit StoreState :=
  match st.msg with
  | none => .error ()
  | some m =>
    if m.sender ≠ .assistant then .error ()
    else if m.status ≠ .pending then .error ()
    else
      .ok { st with
        msg := some { m with
          status := .cancelled,
          content := if m.content.isEmpty then "Response cancelled by user.".data else m.content,
          stoppedAt := some now },
        convUpdatedAt := now }

/-- The operations of the subsystem that write a terminal status. -/
inductive StoreOp
  | commit (fs : List FSFile) (replyText : Str) (savedPaths : List Str) (now : Nat)
  | fail (now : Nat)
  | stop (now : Nat)

/-- Apply one status-writing operation; a rejected `stop` (HTTP 400/404)
leaves the store unchanged. -/
def applyOp (op : StoreOp) (st : StoreState) : StoreState :=
  match op with
  | .commit fs t p n => commit_step fs st t p n
  | .fail n => failure_step st n
  | .stop n =>
    match stop_generation st n with
    | .ok st2 => st2
    | .error _ => st

/-! ## The worker poll loop -/

/-- One value the worker can put on its result queue: `("ok", payload)` or
`("error", diagnostic)`. -/
inductive WorkerMsg
  | ok (payload : Str)
  | err (diag : Str)
deriving DecidableEq

/-- What one iteration of the supervisor's poll loop observes: whether
`process.exitcode` is set, and what `result_queue.get_nowait()` would
return (`none` models `queue.Empty`). -/
structure WorkerObs where
  exited : Bool
  channel : Option WorkerMsg
deriving DecidableEq

/-- The diagnostic of the `RuntimeError` raised when the worker exited
without a result. -/
def workerCrashDiag : Str := "Assistant worker exited without a result".data

/-- The poll loop of `run_assistant_reply` (lines 1136-1156) over a trace of
observations, one per iteration: if the worker has exited, drain the queue
once and otherwise raise the crash error; if it is still alive, drain the
queue once and otherwise sleep and poll again.  `none` means the trace ended
with the loop still polling. -/
def pollWorker : List WorkerObs → Option (Except Str Str)
  | [] => none
  | o :: rest =>
    if o.exited then
      some (match o.channel with
        | some (.ok p) => .ok p
        | some (.err d) => .error d
        | none => .error workerCrashDiag)
    else
      match o.channel with
      | some (.ok p) => some (.ok p)
      | some (.err d) => some (.error d)
      | none => pollWorker rest

/-- The supervisor tail after the worker was spawned: a successful poll
commits, a raised error runs the failure path (the store write of the
exception handler), and an unfinished trace leaves the store alone. -/
def superviseStep (fs : List FSFile) (st : StoreState) (obs : List WorkerObs)
    (savedPaths : List Str) (now : Nat) : Option StoreState :=
  match pollWorker obs with
  | none => none
  | some (.ok payload) => some (commit_step fs st payload savedPaths now)
  | some (.error _) => some (failure_step st now)

/-! ## Commit-with-retry (lines 1184-1196) -/

/-- An error raised by the final write: a `sqlite3.OperationalError` with its
message, or any other exception (which the `except` clause does not catch). -/
inductive DbWriteError
  | operational (msg : Str)
  | fatal (msg : Str)
deriving DecidableEq

/-- Contention-class test of the handler: the caught error is retried exactly
when `"locked"` occurs in the lowercased message; a non-`OperationalError`
is never caught at all, so it is never retried either. -/
def isContention : DbWriteError → Bool
  | .operational msg => containsSub ("locked".data) (msg.map Char.toLower)
  | .fatal _ => false

instance : DecidableEq (Except DbWriteError Unit) := fun x y =>
  match x, y with
  | .ok (), .ok () => isTrue rfl
  | .error a, .error b =>
    if h : a = b then isTrue (by rw [h]) else isFalse (fun he => h (Except.error.inj he))
  | .ok _, .error _ => isFalse (fun he => Except.noConfusion he)
  | .error _, .ok _ => isFalse (fun he => Except.noConfusion he)

/-- Result of the retry loop: the outcome, the number of write attempts made,
and the backoff sleeps (in milliseconds, `0.2 * (attempt + 1)` seconds). -/
structure CommitResult where
  outcome : Except DbWriteError Unit
  attempts : Nat
  backoffsMs : List Nat
deriving DecidableEq

/-- The body of `for attempt in range(3)`: break on success; re-raise a
non-contention error or a failure of the last attempt (`attempt == 2`);
otherwise sleep `0.2 * (attempt + 1)` seconds and retry. -/
def commitRetryLoop (write : Nat → Except DbWriteError Unit) :
    List Nat → CommitResult
  | [] => ⟨.ok (), 0, []⟩
  | attempt :: rest =>
    match write attempt with
    | .ok () => ⟨.ok (), 1, []⟩
    | .error e =>
      if !isContention e || attempt == 2 then ⟨.error e, 1, []⟩
      else
        let r := commitRetryLoop write rest
        ⟨r.outcome, r.attempts + 1, 200 * (attempt + 1) :: r.backoffsMs⟩

/-- The commit write under `for attempt in range(3)`. -/
def commitWithRetry (write : Nat → Except DbWriteError Unit) : CommitResult :=
  commitRetryLoop write [0, 1, 2]

/-! ## The pending-generation registry -/

/-- One `pending_generations` entry: whether the worker process handle is set
and alive, and whether the supervising task handle is set. -/
structure PendingEntry where
  processAlive : Bool
  hasTask : Bool
deriving DecidableEq

/-- `pending_generations`, a map from message id to its entry. -/
abbrev Registry := List (Nat × PendingEntry)

/-- Dictionary lookup by message id. -/
def regLookup (reg : Registry) (mid : Nat) : Option PendingEntry :=
  (reg.find? (fun kv => kv.1 == mid)).map (fun kv => kv.2)

/-- `pending_generations.pop(mid, None)`: the registry without the entry for
`mid`. -/
def regErase (reg : Registry) (mid : Nat) : Registry :=
  reg.filter (fun kv => !(kv.1 == mid))

/-- The externally visible actions of `cancel_pending_generation`: whether it
terminated a live worker and whether it cancelled the supervising task. -/
structure CancelEffects where
  terminatedWorker : Bool
  cancelledTask : Bool
deriving DecidableEq

/-- `cancel_pending_generation(message_id)` (lines 1228-1238): pop the entry;
when there is none, return silently; otherwise terminate the worker if it is
alive and cancel the supervising task. -/
def cancel_pending_generation (reg : Registry) (mid : Nat) :
    Registry × CancelEffects :=
  match regLookup reg mid with
  | none => (reg, ⟨false, false⟩)
  | some entry => (regErase reg mid, ⟨entry.processAlive, entry.hasTask⟩)

/-- The terminal path taken by one supervising task. -/
inductive TerminalPath
  | succeeded
  | erred
  | wasCancelled
deriving DecidableEq

/-- The registry effect of one finished reply job: the `finally` block always
pops the entry; on the cancellation path `cancel_pending_generation` already
popped it before cancelling the task, and the `finally` pop runs again on the
emptied slot. -/
def runReplyRegistry (reg : Registry) (mid : Nat) : TerminalPath → Registry
  | .succeeded => regErase reg mid
  | .erred => regErase reg mid
  | .wasCancelled => regErase (cancel_pending_generation reg mid).1 mid

/-! ## Concrete example inputs -/

/-- A text whose first reference has a uniquely-suffixed sibling and whose
second reference names a file inside a directory that does not exist yet. -/
def cxText6 : Str := "/chat_uploads/a.txt /chat_uploads/a.txt_extra/b.png".data

/-- Snapshot for `cxText6`: the sibling `a_1.txt`, and a file inside the
directory `a_1.txt_extra` that the first repair pass steers the second
reference into. -/
def cxFs6 : List FSFile := [⟨"a_1.txt".data, 5⟩, ⟨"a_1.txt_extra/b_2.png".data, 7⟩]

/-- A text with two missing references where one is a proper substring of the
other. -/
def cxText9 : Str := "/chat_uploads/a /chat_uploads/a_1".data

/-- Snapshot for `cxText9`: `a_*` has the candidates `a_5` (newest) and
`a_1_9`, while `a_1_*` has only `a_1_9`. -/
def cxFs9 : List FSFile := [⟨"a_5".data, 10⟩, ⟨"a_1_9".data, 3⟩]

/-- A snapshot with distinct mtimes, used to exhibit invariance of the repair
pass under reordering of the snapshot listing. -/
def exFsA : List FSFile := [⟨"a_1.txt".data, 1⟩, ⟨"b_2.txt".data, 2⟩]

/-- A store state holding a cancelled assistant reply row. -/
def exCancelledState : StoreState :=
  { msg := some { sender := .assistant, content := "partial".data,
                  status := .cancelled, stoppedAt := some 3 },
    msgFiles := ["old_1.txt".data],
    convUpdatedAt := 1 }

/-- A store state holding a pending assistant reply row with empty content. -/
def exPendingState : StoreState :=
  { msg := some { sender := .assistant, content := [],
                  status := .pending, stoppedAt := none },
    msgFiles := [],
    convUpdatedAt := 1 }

/-- A write stub that fails with a lock-contention error twice and then
succeeds. -/
def exContendedWrite : Nat → Except DbWriteError Unit :=
  fun attempt =>
    if attempt < 2 then .error (.operational "database is locked".data) else .ok ()

/-- A write stub that fails with a non-contention error. -/
def exFatalWrite : Nat → Except DbWriteError Unit :=
  fun _ => .error (.fatal "disk is full".data)

/-- A two-entry registry. -/
def exRegistry : Registry :=
  [(7, ⟨true, true⟩), (9, ⟨false, true⟩)]

/-! # Helper lemmas -/

theorem containsSub_nil_pat (s : Str) : containsSub [] s = true := by
  cases s <;> simp [containsSub]

theorem containsSub_of_isPrefixOf {pat s : Str} (h : pat.isPrefixOf s = true) :
    containsSub pat s = true := by
  cases s with
  | nil =>
    cases pat with
    | nil => rfl
    | cons c cs => simp at h
  | cons c rest => simp [containsSub, h]

theorem containsSub_cons {pat s : Str} (c : Char) (h : containsSub pat s = true) :
    containsSub pat (c :: s) = true := by
  simp [containsSub, h]

theorem containsSub_append_left {pat a : Str} (b : Str) (h : containsSub pat a = true) :
    containsSub pat (a ++ b) = true := by
  induction a with
  | nil =>
    have hp : pat = [] := by simpa [containsSub, List.isEmpty_iff] using h
    subst hp
    exact containsSub_nil_pat b
  | cons c rest ih =>
    rw [containsSub] at h
    rcases Bool.or_eq_true_iff.mp h with hp | hc
    · apply containsSub_of_isPrefixOf
      rw [List.isPrefixOf_iff_prefix] at hp ⊢
      exact hp.trans (List.prefix_append _ _)
    · exact containsSub_cons c (ih hc)

theorem containsSub_append_right {pat b : Str} (a : Str) (h : containsSub pat b = true) :
    containsSub pat (a ++ b) = true := by
  induction a with
  | nil => simpa using h
  | cons c rest ih => exact containsSub_cons c ih

theorem containsSub_self (s : Str) : containsSub s s = true := by
  cases s with
  | nil => rfl
  | cons c rest =>
    apply containsSub_of_isPrefixOf
    rw [List.isPrefixOf_iff_prefix]

theorem containsSub_joinNl {x : Str} {l : List Str} (h : x ∈ l) :
    containsSub x (joinNl l) = true := by
  induction l with
  | nil => exact absurd h (List.not_mem_nil x)
  | cons y rest ih =>
    cases rest with
    | nil =>
      rcases List.mem_singleton.mp h with rfl
      exact containsSub_self x
    | cons z rest2 =>
      rcases List.mem_cons.mp h with rfl | hmem
      · exact containsSub_append_left _ (containsSub_self x)
      · rw [joinNl, List.append_cons]
        exact containsSub_append_right _ (ih hmem)

theorem replaceAllAux_nil_subject (pat rep : Str) (fuel : Nat) :
    replaceAllAux pat rep fuel [] = [] := by
  cases fuel <;> rfl

theorem containsSub_replaceAllAux {pat rep q : Str} (hq : containsSub q rep = true)
    (hpat : pat ≠ []) :
    ∀ fuel s, s.length ≤ fuel → containsSub pat s = true →
      containsSub q (replaceAllAux pat rep fuel s) = true := by
  intro fuel
  induction fuel with
  | zero =>
    intro s hlen hc
    have hs : s = [] := List.length_eq_zero.mp (Nat.le_zero.mp hlen)
    subst hs
    have : pat = [] := by simpa [containsSub, List.isEmpty_iff] using hc
    exact absurd this hpat
  | succ f ih =>
    intro s hlen hc
    cases s with
    | nil =>
      have : pat = [] := by simpa [containsSub, List.isEmpty_iff] using hc
      exact absurd this hpat
    | cons c rest =>
      rw [replaceAllAux]
      by_cases hpre : pat.isPrefixOf (c :: rest) = true
      · have hcond : (!pat.isEmpty && pat.isPrefixOf (c :: rest)) = true := by
          simp [hpre, List.isEmpty_iff, hpat]
        rw [if_pos hcond]
        exact containsSub_append_left _ hq
      · have hcond : (!pat.isEmpty && pat.isPrefixOf (c :: rest)) = false := by
          simp [hpre]
        rw [if_neg (by simp [hcond])]
        have hrest : containsSub pat rest = true := by
          rw [containsSub] at hc
          rcases Bool.or_eq_true_iff.mp hc with hp | hr
          · exact absurd hp hpre
          · exact hr
        have hlen2 : rest.length ≤ f := by
          simp only [List.length_cons] at hlen
          omega
        exact containsSub_cons c (ih rest hlen2 hrest)

theorem containsSub_replaceAll {pat rep q s : Str} (hpat : pat ≠ [])
    (hs : containsSub pat s = true) (hq : containsSub q rep = true) :
    containsSub q (replaceAll pat rep s) = true :=
  containsSub_replaceAllAux hq hpat s.length s (Nat.le_refl _) hs

theorem replaceAllAux_strip_end {pat : Str} :
    ∀ fuel A, (A ++ pat).length ≤ fuel →
      containsSub pat (A ++ pat.dropLast) = false →
      replaceAllAux pat [] fuel (A ++ pat) = A := by
  intro fuel
  induction fuel with
  | zero =>
    intro A hlen hA
    have h0 : A ++ pat = [] := List.length_eq_zero.mp (Nat.le_zero.mp hlen)
    have hA0 : A = [] := (List.append_eq_nil.mp h0).1
    have hp0 : pat = [] := (List.append_eq_nil.mp h0).2
    subst hA0; subst hp0
    simp [containsSub] at hA
  | succ f ih =>
    intro A hlen hA
    have hpat : pat ≠ [] := by
      intro h
      subst h
      rw [containsSub_nil_pat] at hA
      exact Bool.true_eq_false.mp hA
    cases A with
    | nil =>
      cases pat with
      | nil => exact absurd rfl hpat
      | cons p ps =>
        have hpre : (p :: ps).isPrefixOf (p :: ps) = true := by
          rw [List.isPrefixOf_iff_prefix]
        rw [List.nil_append, replaceAllAux, if_pos (by simp [hpre])]
        rw [List.drop_length]
        rw [replaceAllAux_nil_subject]
        rfl
    | cons a A2 =>
      have hAsplit := hA
      rw [List.cons_append, containsSub] at hAsplit
      have hboth := Bool.or_eq_false_iff.mp hAsplit
      have hnotpre : pat.isPrefixOf (a :: (A2 ++ pat)) = false := by
        by_contra hcon
        have hpre : pat.isPrefixOf (a :: (A2 ++ pat)) = true := by
          cases hval : pat.isPrefixOf (a :: (A2 ++ pat))
          · exact absurd hval hcon
          · rfl
        rw [List.isPrefixOf_iff_prefix] at hpre
        obtain ⟨t, ht⟩ := List.dropLast_prefix pat
        have hsub : (a :: (A2 ++ pat.dropLast)) <+: (a :: (A2 ++ pat)) := by
          refine ⟨t, ?_⟩
          simp only [List.cons_append, List.cons.injEq, true_and]
          rw [List.append_assoc, ht]
        have hlen2 : pat.length ≤ (a :: (A2 ++ pat.dropLast)).length := by
          simp only [List.length_cons, List.length_append, List.length_dropLast]
          have : 1 ≤ pat.length := List.length_pos.mpr hpat
          omega
        have hdp : pat <+: (a :: (A2 ++ pat.dropLast)) :=
          List.prefix_of_prefix_length_le hpre hsub hlen2
        have hfalse : pat.isPrefixOf (a :: (A2 ++ pat.dropLast)) = true := by
          rw [List.isPrefixOf_iff_prefix]
          exact hdp
        exact Bool.true_eq_false.mp (hfalse.symm.trans hboth.1)
      rw [List.cons_append, replaceAllAux, if_neg (by simp [hnotpre])]
      have hlen2 : (A2 ++ pat).length ≤ f := by
        simp only [List.cons_append, List.length_cons] at hlen
        omega
      rw [ih A2 hlen2 hboth.2]

theorem replaceAll_strip_end {pat A : Str}
    (hA : containsSub pat (A ++ pat.dropLast) = false) :
    replaceAll pat [] (A ++ pat) = A :=
  replaceAllAux_strip_end (A ++ pat).length A (Nat.le_refl _) hA

theorem applyRaws_id_of_inert {fs : List FSFile} :
    ∀ raws : List Str, (∀ raw ∈ raws, rawInert fs raw = true) →
      ∀ text, applyRaws fs raws text = text := by
  intro raws
  induction raws with
  | nil => intro _ t; rfl
  | cons r rest ih =>
    intro h t
    have hr : refRewrite fs r = none := by
      have := h r (List.mem_cons_self r rest)
      simpa [rawInert, Option.isNone_iff_eq_none] using this
    rw [applyRaws, hr]
    exact ih (fun raw hm => h raw (List.mem_cons_of_mem _ hm)) t

theorem regLookup_regErase_self (reg : Registry) (mid : Nat) :
    regLookup (regErase reg mid) mid = none := by
  induction reg with
  | nil => rfl
  | cons kv rest ih =>
    cases h : (kv.1 == mid) with
    | true =>
      simp only [regErase, List.filter_cons, h, Bool.not_true, Bool.false_eq_true, if_false]
      exact ih
    | false =>
      simp only [regErase, List.filter_cons, h, Bool.not_false, if_true, regLookup,
        List.find?, h, Option.map_eq_none]
      simp [regErase, regLookup, Option.map_eq_none]

theorem regErase_regErase (reg : Registry) (mid : Nat) :
    regErase (regErase reg mid) mid = regErase reg mid := by
  induction reg with
  | nil => rfl
  | cons kv rest ih =>
    cases h : (kv.1 == mid) with
    | true =>
      simp only [regErase, List.filter_cons, h, Bool.not_true, Bool.false_eq_true, if_false]
      exact ih
    | false =>
      simp only [regErase, List.filter_cons, h, Bool.not_false, if_true]
      exact congrArg (fun l => kv :: l) ih

theorem countKey_regErase (reg : Registry) (mid : Nat) :
    List.countP (fun kv => kv.1 == mid) (regErase reg mid) = 0 := by
  rw [List.countP_eq_zero]
  intro kv hkv
  have := List.of_mem_filter hkv
  simp only [Bool.not_eq_true'] at this
  simp [this]

theorem regLookup_regErase_ne (reg : Registry) (mid k : Nat) (hk : k ≠ mid) :
    regLookup (regErase reg mid) k = regLookup reg k := by
  induction reg with
  | nil => rfl
  | cons kv rest ih =>
    cases h : (kv.1 == mid) with
    | true =>
      have hkv : kv.1 = mid := eq_of_beq h
      have hne : (kv.1 == k) = false := by
        rw [hkv]
        exact beq_eq_false_iff_ne.mpr (fun he => hk he.symm)
      simp [regErase, regLookup, List.filter_cons, List.find?, h, hne] at ih ⊢
      exact ih
    | false =>
      cases hks : (kv.1 == k) with
      | true => simp [regErase, regLookup, List.filter_cons, List.find?, h, hks]
      | false => simpa [regErase, regLookup, List.filter_cons, List.find?, h, hks] using ih

theorem foldl_pickStep_mem :
    ∀ (rest : List FSFile) (a : FSFile),
      rest.foldl pickStep a = a ∨ rest.foldl pickStep a ∈ rest := by
  intro rest
  induction rest with
  | nil => intro a; exact Or.inl rfl
  | cons b r ih =>
    intro a
    rcases ih (pickStep a b) with h | h
    · rw [List.foldl_cons, h]
      unfold pickStep
      split
      · exact Or.inr (List.mem_cons_self b r)
      · exact Or.inl rfl
    · exact Or.inr (List.mem_cons_of_mem b ((List.foldl_cons ..).symm ▸ h))

theorem foldl_pickStep_ge :
    ∀ (rest : List FSFile) (a : FSFile),
      a.mtime ≤ (rest.foldl pickStep a).mtime ∧
        ∀ g ∈ rest, g.mtime ≤ (rest.foldl pickStep a).mtime := by
  intro rest
  induction rest with
  | nil =>
    intro a
    exact ⟨Nat.le_refl _, fun g hg => absurd hg (List.not_mem_nil g)⟩
  | cons b r ih =>
    intro a
    obtain ⟨h1, h2⟩ := ih (pickStep a b)
    have hab : a.mtime ≤ (pickStep a b).mtime ∧ b.mtime ≤ (pickStep a b).mtime := by
      unfold pickStep
      split <;> omega
    refine ⟨Nat.le_trans hab.1 h1, ?_⟩
    intro g hg
    rcases List.mem_cons.mp hg with rfl | hg2
    · exact Nat.le_trans hab.2 h1
    · exact h2 g hg2

theorem pickLatest_mem_max {l : List FSFile} {f : FSFile} (h : pickLatest l = some f) :
    f ∈ l ∧ ∀ g ∈ l, g.mtime ≤ f.mtime := by
  cases l with
  | nil => exact absurd h (by simp [pickLatest])
  | cons a r =>
    have hf : r.foldl pickStep a = f := by
      simpa [pickLatest] using h
    constructor
    · rcases foldl_pickStep_mem r a with he | he
      · rw [← hf, he]; exact List.mem_cons_self a r
      · rw [← hf]; exact List.mem_cons_of_mem a he
    · intro g hg
      obtain ⟨h1, h2⟩ := foldl_pickStep_ge r a
      rcases List.mem_cons.mp hg with rfl | hg2
      · rw [← hf]; exact h1
      · rw [← hf]; exact h2 g hg2

theorem pickLatest_eq_of_max {l : List FSFile} {f : FSFile} (hmem : f ∈ l)
    (hmax : ∀ g ∈ l, g.mtime ≤ f.mtime)
    (hdist : l.Pairwise (fun x y => x.mtime ≠ y.mtime)) :
    pickLatest l = some f := by
  cases l with
  | nil => exact absurd hmem (List.not_mem_nil f)
  | cons a r =>
    obtain ⟨hm, hx⟩ := pickLatest_mem_max (l := a :: r) (f := r.foldl pickStep a) (by rfl)
    have h1 : (r.foldl pickStep a).mtime ≤ f.mtime := hmax _ hm
    have h2 : f.mtime ≤ (r.foldl pickStep a).mtime := hx f hmem
    have heqt : f.mtime = (r.foldl pickStep a).mtime := Nat.le_antisymm h2 h1
    by_cases hfe : f = r.foldl pickStep a
    · rw [pickLatest, hfe]
    · have hne : f.mtime ≠ (r.foldl pickStep a).mtime :=
        List.Pairwise.forall (by intro x y hxy; exact hxy.symm) hdist hmem hm hfe
      exact absurd heqt hne

theorem pickLatest_perm {l1 l2 : List FSFile} (hp : l1.Perm l2)
    (hdist : l1.Pairwise (fun x y => x.mtime ≠ y.mtime)) :
    pickLatest l1 = pickLatest l2 := by
  cases hl : pickLatest l1 with
  | none =>
    cases l1 with
    | nil =>
      rw [List.Perm.eq_nil hp.symm]
      rfl
    | cons a r => exact absurd hl (by simp [pickLatest])
  | some f =>
    obtain ⟨hmem, hmax⟩ := pickLatest_mem_max hl
    have hdist2 : l2.Pairwise (fun x y => x.mtime ≠ y.mtime) :=
      (hp.pairwise_iff (fun hxy => hxy ∘ Eq.symm)).mp hdist
    exact (pickLatest_eq_of_max (hp.mem_iff.mp hmem)
      (fun g hg => hmax g (hp.mem_iff.mpr hg)) hdist2).symm

theorem fileExists_perm {fs1 fs2 : List FSFile} (hp : fs1.Perm fs2) (rel : Str) :
    fileExists fs1 rel = fileExists fs2 rel := by
  unfold fileExists
  cases h2 : fs2.any (fun f => f.path == rel) with
  | true =>
    obtain ⟨x, hx, hpx⟩ := List.any_eq_true.mp h2
    refine List.any_eq_true.mpr ⟨x, hp.mem_iff.mpr hx, ?_⟩
    exact hpx
  | false =>
    cases h1 : fs1.any (fun f => f.path == rel) with
    | true =>
      obtain ⟨x, hx, hpx⟩ := List.any_eq_true.mp h1
      have h3 : fs2.any (fun f => f.path == rel) = true := by
        refine List.any_eq_true.mpr ⟨x, hp.mem_iff.mp hx, ?_⟩
        exact hpx
      rw [h3] at h2
      exact h2
    | false => rfl

theorem refRewrite_perm {fs1 fs2 : List FSFile} (hp : fs1.Perm fs2)
    (hdist : fs1.Pairwise (fun x y => x.mtime ≠ y.mtime)) (raw : Str) :
    refRewrite fs1 raw = refRewrite fs2 raw := by
  cases hpr : parseRef raw with
  | none => simp [refRewrite, hpr]
  | some pr =>
    obtain ⟨pre, rel⟩ := pr
    simp only [refRewrite, hpr]
    rw [fileExists_perm hp rel]
    have hcand : (globCandidates fs1 rel).Perm (globCandidates fs2 rel) := hp.filter _
    have hdist2 : (globCandidates fs1 rel).Pairwise (fun x y => x.mtime ≠ y.mtime) :=
      hdist.sublist (List.filter_sublist fs1)
    rw [pickLatest_perm hcand hdist2]

theorem applyRaws_perm {fs1 fs2 : List FSFile} (hp : fs1.Perm fs2)
    (hdist : fs1.Pairwise (fun x y => x.mtime ≠ y.mtime)) :
    ∀ (raws : List Str) (text : Str), applyRaws fs1 raws text = applyRaws fs2 raws text := by
  intro raws
  induction raws with
  | nil => intro t; rfl
  | cons r rest ih =>
    intro t
    rw [applyRaws, applyRaws, refRewrite_perm hp hdist r]
    cases refRewrite fs2 r with
    | none => exact ih t
    | some rep => exact ih (replaceAll r rep t)

/-! # Claim theorems -/

/-- Claim C1: if, at commit time, the persisted status of the reply message
is not `pending` (for example it was already cancelled), the commit step
performs no write at all: the message row, its files, and the conversation
are left unchanged, so a cancellation observed by the store before the commit
reads status is never overwritten by a `completed` result. -/
theorem C1_commit_skipped_when_not_pending
    (fs : List FSFile) (st : StoreState) (replyText : Str) (savedPaths : List Str)
    (now : Nat) (h : ∀ m, st.msg = some m → m.status ≠ .pending) :
    commit_step fs st replyText savedPaths now = st := by
  cases hm : st.msg with
  | none => simp [commit_step, hm]
  | some m => simp [commit_step, hm, h m hm]

/-- Witness for C1: the commit step leaves a cancelled row, its files and the
conversation stamp exactly as they were. -/
theorem C1_commit_skipped_witness :
    commit_step exFsA exCancelledState ("done".data) ["gen_1.txt".data] 9 =
      exCancelledState :=
  C1_commit_skipped_when_not_pending _ _ _ _ _
    (by intro m hm; simp only [exCancelledState] at hm; cases hm; decide)

/-- Claim C3: every exception in the supervising task that is not the
cancellation signal takes the failure path: a still-`pending` row is updated
to `failed` with non-empty content (the partial content, or the fallback
string when it is empty) and a `stopped_at` stamp; a row that is no longer
`pending` is left untouched. -/
theorem C3_failure_path
    (st : StoreState) (now : Nat) (e : SupervisorExc) (he : e ≠ .cancelSignal) :
    handleSupervisorExc st now e = .ok (failure_step st now) ∧
    (∀ m, st.msg = some m → m.status = .pending →
      (failure_step st now).msg =
        some { m with
          content := if m.content.isEmpty then "Response failed.".data else m.content,
          status := .failed, stoppedAt := some now } ∧
      ∀ m2, (failure_step st now).msg = some m2 →
        m2.status = .failed ∧ m2.content ≠ [] ∧ m2.stoppedAt = some now) ∧
    (∀ m, st.msg = some m → m.status ≠ .pending → failure_step st now = st) := by
  refine ⟨?_, ?_, ?_⟩
  · cases e with
    | cancelSignal => exact absurd rfl he
    | failure d => rfl
  · intro m hm hp
    have hmsg : (failure_step st now).msg =
        some { m with
          content := if m.content.isEmpty then "Response failed.".data else m.content,
          status := .failed, stoppedAt := some now } := by
      simp [failure_step, hm, hp]
    refine ⟨hmsg, ?_⟩
    intro m2 hm2
    rw [hmsg] at hm2
    cases hm2
    refine ⟨rfl, ?_, rfl⟩
    cases hc : m.content.isEmpty with
    | true => simp [hc]
    | false =>
      simp only [hc, Bool.false_eq_true, if_false]
      intro hcon
      rw [hcon] at hc
      simp at hc
  · intro m hm hnp
    simp [failure_step, hm, hnp]

/-- Witness for C3: a non-cancellation exception over a pending row with
empty partial content yields a failed row carrying the fallback string. -/
theorem C3_failure_path_witness :
    handleSupervisorExc exPendingState 4 (.failure "boom".data) =
      .ok (failure_step exPendingState 4) ∧
    (failure_step exPendingState 4).msg =
      some { sender := .assistant, content := "Response failed.".data,
             status := .failed, stoppedAt := some 4 } := by
  have h := C3_failure_path exPendingState 4 (.failure "boom".data) (by intro h; cases h)
  refine ⟨h.1, ?_⟩
  have h2 := (h.2.1 { sender := .assistant, content := [], status := .pending, stoppedAt := none }
    (by simp only [exPendingState]) rfl).1
  rw [h2]
  rfl

/-- Claim C4: a worker that has terminated with an empty result channel is a
fatal crash: the poll loop raises the crash error at once instead of blocking
on the channel, and the failure path then marks a still-pending message
`failed`, so a killed worker never leaves the message `pending` forever. -/
theorem C4_worker_crash
    (rest : List WorkerObs) (fs : List FSFile) (st : StoreState) (savedPaths : List Str)
    (now : Nat) (m : MessageRow) (hm : st.msg = some m) (hp : m.status = .pending) :
    pollWorker ({ exited := true, channel := none } :: rest) =
      some (.error workerCrashDiag) ∧
    superviseStep fs st ({ exited := true, channel := none } :: rest) savedPaths now =
      some (failure_step st now) ∧
    ∃ m2, (failure_step st now).msg = some m2 ∧ m2.status = .failed := by
  refine ⟨rfl, rfl, ?_⟩
  refine ⟨{ m with
    content := if m.content.isEmpty then "Response failed.".data else m.content,
    status := .failed, stoppedAt := some now }, ?_, rfl⟩
  simp [failure_step, hm, hp]

/-- Witness for C4: with a dead worker and an empty channel, the supervisor
step marks the pending example row failed. -/
theorem C4_worker_crash_witness :
    pollWorker ({ exited := true, channel := none } :: []) =
      some (.error workerCrashDiag) ∧
    superviseStep [] exPendingState ({ exited := true, channel := none } :: []) [] 4 =
      some (failure_step exPendingState 4) := by
  have h := C4_worker_crash [] [] exPendingState [] 4
    { sender := .assistant, content := [], status := .pending, stoppedAt := none }
    (by simp only [exPendingState]) rfl
  exact ⟨h.1, h.2.1⟩

/-- Claim C5: for every assistant-sender message, the status moves from
`pending` to exactly one of completed/failed/cancelled at most once and never
returns to `pending`: each of the three status-writing operations of the
subsystem (commit, failure path, stop endpoint) is guarded by a check that
the persisted status is still `pending` — on a non-pending row it changes
nothing — and none of them ever writes `pending` back. -/
theorem C5_status_transition_guard (op : StoreOp) (st : StoreState) :
    (∀ m, st.msg = some m → m.status ≠ .pending → applyOp op st = st) ∧
    (∀ m m2, st.msg = some m → (applyOp op st).msg = some m2 →
      (m2.status ≠ m.status →
        m.status = .pending ∧
          (m2.status = .completed ∨ m2.status = .failed ∨ m2.status = .cancelled)) ∧
      (m2.status = .pending → m.status = .pending)) := by
  have hfrozen : ∀ m, st.msg = some m → m.status ≠ .pending → applyOp op st = st := by
    intro m hm hnp
    cases op with
    | commit fs t p n => simp [applyOp, commit_step, hm, hnp]
    | fail n => simp [applyOp, failure_step, hm, hnp]
    | stop n => simp [applyOp, stop_generation, hm, hnp]
  refine ⟨hfrozen, ?_⟩
  intro m m2 hm hm2
  by_cases hp : m.status = .pending
  · cases op with
    | commit fs t p n =>
      simp only [applyOp, commit_step, hm, hp, if_pos] at hm2
      cases hm2
      exact ⟨fun _ => ⟨hp, Or.inl rfl⟩, by intro h; cases h⟩
    | fail n =>
      simp only [applyOp, failure_step, hm, hp, if_pos] at hm2
      cases hm2
      exact ⟨fun _ => ⟨hp, Or.inr (Or.inl rfl)⟩, by intro h; cases h⟩
    | stop n =>
      by_cases hs : m.sender = .assistant
      · simp only [applyOp, stop_generation, hm, hp, hs] at hm2
        simp only [ne_eq, not_true_eq_false, if_false, reduceCtorEq,
          not_false_eq_true, if_true] at hm2
        cases hm2
        exact ⟨fun _ => ⟨hp, Or.inr (Or.inr rfl)⟩, by intro h; cases h⟩
      · have : applyOp (StoreOp.stop n) st = st := by
          simp [applyOp, stop_generation, hm, hs]
        rw [this, hm] at hm2
        cases hm2
        exact ⟨fun h => absurd rfl h, fun _ => hp⟩
  · have he := hfrozen m hm hp
    rw [he, hm] at hm2
    cases hm2
    exact ⟨fun h => absurd rfl h, fun h => h⟩

/-- Witness for C5: the stop operation on a pending assistant row writes
`cancelled`, and on the already-cancelled row it changes nothing. -/
theorem C5_status_transition_guard_witness :
    applyOp (.stop 6) exCancelledState = exCancelledState ∧
    ((applyOp (.stop 6) exPendingState).msg.map (fun m => m.status) = some .cancelled) := by
  constructor
  · exact (C5_status_transition_guard (.stop 6) exCancelledState).1
      { sender := .assistant, content := "partial".data, status := .cancelled,
        stoppedAt := some 3 }
      (by simp only [exCancelledState]) (by decide)
  · decide

/-- Claim C7: cancel is idempotent and safe on finished jobs: a cancel for a
message id with no pending entry (job finished or never scheduled) returns
silently with no registry change and no process/task action, and a second
cancel after a first one is such a no-op. -/
theorem C7_cancel_idempotent (reg : Registry) (mid : Nat) :
    (regLookup reg mid = none →
      cancel_pending_generation reg mid = (reg, ⟨false, false⟩)) ∧
    cancel_pending_generation (cancel_pending_generation reg mid).1 mid =
      ((cancel_pending_generation reg mid).1, ⟨false, false⟩) := by
  have hnone : ∀ r : Registry, regLookup r mid = none →
      cancel_pending_generation r mid = (r, ⟨false, false⟩) := by
    intro r hr
    simp [cancel_pending_generation, hr]
  refine ⟨hnone reg, ?_⟩
  cases h : regLookup reg mid with
  | none =>
    rw [hnone reg h]
    exact hnone reg h
  | some entry =>
    have h1 : (cancel_pending_generation reg mid).1 = regErase reg mid := by
      simp [cancel_pending_generation, h]
    rw [h1]
    exact hnone _ (regLookup_regErase_self reg mid)

/-- Witness for C7: cancelling an absent id leaves the example registry
untouched, and a second cancel of an existing id is a no-op. -/
theorem C7_cancel_idempotent_witness :
    cancel_pending_generation exRegistry 5 = (exRegistry, ⟨false, false⟩) ∧
    cancel_pending_generation (cancel_pending_generation exRegistry 7).1 7 =
      ((cancel_pending_generation exRegistry 7).1, ⟨false, false⟩) :=
  ⟨(C7_cancel_idempotent exRegistry 5).1 (by decide),
   (C7_cancel_idempotent exRegistry 7).2⟩

/-- Claim C8: the registry entry of a scheduled job is removed exactly once,
on every terminal path of the supervising task: each path performs the same
single erase of the job's key, after which no entry for it remains, while
entries of other jobs are untouched (on the cancellation path, the second pop
in the `finally` block finds the slot already empty). -/
theorem C8_registry_removed (reg : Registry) (mid : Nat) (path : TerminalPath) :
    runReplyRegistry reg mid path = regErase reg mid ∧
    regLookup (runReplyRegistry reg mid path) mid = none ∧
    List.countP (fun kv => kv.1 == mid) (runReplyRegistry reg mid path) = 0 ∧
    (∀ k, k ≠ mid → regLookup (runReplyRegistry reg mid path) k = regLookup reg k) := by
  have herase : runReplyRegistry reg mid path = regErase reg mid := by
    cases path with
    | succeeded => rfl
    | erred => rfl
    | wasCancelled =>
      rw [runReplyRegistry]
      cases h : regLookup reg mid with
      | none =>
        simp only [cancel_pending_generation, h]
      | some entry =>
        simp only [cancel_pending_generation, h]
        exact regErase_regErase reg mid
  refine ⟨herase, ?_, ?_, ?_⟩
  · rw [herase]; exact regLookup_regErase_self reg mid
  · rw [herase]; exact countKey_regErase reg mid
  · intro k hk
    rw [herase]
    exact regLookup_regErase_ne reg mid k hk

/-- Witness for C8: the cancellation path removes the scheduled entry of the
example registry exactly as the single erase does, and keeps the other job. -/
theorem C8_registry_removed_witness :
    runReplyRegistry exRegistry 7 .wasCancelled = regErase exRegistry 7 ∧
    regLookup (runReplyRegistry exRegistry 7 .wasCancelled) 9 = regLookup exRegistry 9 := by
  have h := C8_registry_removed exRegistry 7 .wasCancelled
  exact ⟨h.1, h.2.2.2 9 (by decide)⟩

theorem commitRetryLoop_attempts_le (write : Nat → Except DbWriteError Unit) :
    ∀ l : List Nat, (commitRetryLoop write l).attempts ≤ l.length := by
  intro l
  induction l with
  | nil => simp [commitRetryLoop]
  | cons a rest ih =>
    cases hw : write a with
    | ok u =>
      cases u
      simp [commitRetryLoop, hw]
    | error e =>
      cases hcond : (!isContention e || (a == 2)) with
      | true => simp [commitRetryLoop, hw, hcond]
      | false =>
        simp only [commitRetryLoop, hw, hcond, Bool.false_eq_true, if_false,
          List.length_cons]
        omega

theorem commitWithRetry_backoffs_cases (write : Nat → Except DbWriteError Unit) :
    (commitWithRetry write).backoffsMs = [] ∨
    (commitWithRetry write).backoffsMs = [200] ∨
    (commitWithRetry write).backoffsMs = [200, 400] := by
  unfold commitWithRetry
  cases hw0 : write 0 with
  | ok u => cases u; simp [commitRetryLoop, hw0]
  | error e0 =>
    cases hc0 : isContention e0 with
    | false => simp [commitRetryLoop, hw0, hc0]
    | true =>
      cases hw1 : write 1 with
      | ok u => cases u; simp [commitRetryLoop, hw0, hc0, hw1]
      | error e1 =>
        cases hc1 : isContention e1 with
        | false => simp [commitRetryLoop, hw0, hc0, hw1, hc1]
        | true =>
          cases hw2 : write 2 with
          | ok u => cases u; simp [commitRetryLoop, hw0, hc0, hw1, hc1, hw2]
          | error e2 => simp [commitRetryLoop, hw0, hc0, hw1, hc1, hw2]

/-- Claim C2: the final write is retried at most 3 times with increasing
backoff and only for contention-class errors: two lock-contention failures
followed by a success commit after exactly 3 attempts with backoffs 200 ms
then 400 ms; a non-contention error fails after exactly 1 attempt; every run
makes at most 3 attempts with strictly increasing backoffs; and any error
that triggered a retry was a contention error. -/
theorem C2_commit_retry_policy (write : Nat → Except DbWriteError Unit) :
    (∀ e0 e1, write 0 = .error e0 → isContention e0 = true →
      write 1 = .error e1 → isContention e1 = true → write 2 = .ok () →
      commitWithRetry write = ⟨.ok (), 3, [200, 400]⟩) ∧
    (∀ e, write 0 = .error e → isContention e = false →
      commitWithRetry write = ⟨.error e, 1, []⟩) ∧
    (commitWithRetry write).attempts ≤ 3 ∧
    List.Chain' (· < ·) (commitWithRetry write).backoffsMs ∧
    (∀ e, write 0 = .error e → 2 ≤ (commitWithRetry write).attempts →
      isContention e = true) := by
  refine ⟨?_, ?_, ?_, ?_, ?_⟩
  · intro e0 e1 h0 hc0 h1 hc1 h2
    simp [commitWithRetry, commitRetryLoop, h0, hc0, h1, hc1, h2]
  · intro e h0 hc0
    simp [commitWithRetry, commitRetryLoop, h0, hc0]
  · exact commitRetryLoop_attempts_le write [0, 1, 2]
  · rcases commitWithRetry_backoffs_cases write with h | h | h <;> rw [h] <;>
      simp [List.chain'_cons]
  · intro e h0 hatt
    cases hc : isContention e with
    | true => rfl
    | false =>
      have : commitWithRetry write = ⟨.error e, 1, []⟩ := by
        simp [commitWithRetry, commitRetryLoop, h0, hc]
      rw [this] at hatt
      simp at hatt

/-- Witness for C2: the doubly-contended stub commits on the third attempt
with backoffs 200 and 400 ms; the fatally-failing stub stops after one. -/
theorem C2_commit_retry_policy_witness :
    commitWithRetry exContendedWrite = ⟨.ok (), 3, [200, 400]⟩ ∧
    commitWithRetry exFatalWrite = ⟨.error (.fatal "disk is full".data), 1, []⟩ :=
  ⟨(C2_commit_retry_policy exContendedWrite).1 _ _ rfl (by decide) rfl (by decide) rfl,
   (C2_commit_retry_policy exFatalWrite).2.1 _ rfl (by decide)⟩

theorem rawInert_of_resolve_or_no_candidate {fs : List FSFile} {raw : Str}
    (h : ((parseRef raw).all fun pr =>
      fileExists fs pr.2 || (globCandidates fs pr.2).isEmpty) = true) :
    rawInert fs raw = true := by
  unfold rawInert refRewrite
  cases hpr : parseRef raw with
  | none => rfl
  | some pr =>
    rw [hpr] at h
    simp only [Option.all] at h
    obtain ⟨pre, rel⟩ := pr
    rcases Bool.or_eq_true_iff.mp h with hex | hemp
    · simp [hex]
    · cases hfe : fileExists fs rel with
      | true => simp [hfe]
      | false =>
        have hnil : globCandidates fs rel = [] := by
          simpa [List.isEmpty_iff] using hemp
        simp [hfe, hnil, pickLatest]

/-- Claim C6 (amended): TextLinkRepair is the identity on already-valid
input — a text whose upload-root references all resolve against the snapshot
is returned unchanged — and `repair(repair(x)) == repair(x)` holds for every
text whose repaired form contains only references that resolve or have no
uniquely-suffixed candidate.  Unconditional idempotence fails on the code:
see the counterexample, where the first pass rewrites one reference inside
another and thereby creates a new repairable reference. -/
theorem C6_repair_identity_and_conditional_idempotence (fs : List FSFile) :
    (∀ text,
      (∀ raw ∈ matchSet text,
        ((parseRef raw).all fun pr => fileExists fs pr.2) = true) →
      fix_missing_upload_links fs text = text) ∧
    (∀ text,
      (∀ raw ∈ matchSet (fix_missing_upload_links fs text),
        ((parseRef raw).all fun pr =>
          fileExists fs pr.2 || (globCandidates fs pr.2).isEmpty) = true) →
      fix_missing_upload_links fs (fix_missing_upload_links fs text) =
        fix_missing_upload_links fs text) := by
  constructor
  · intro text h
    unfold fix_missing_upload_links fixLinksOrd
    split
    · rfl
    · apply applyRaws_id_of_inert
      intro raw hm
      apply rawInert_of_resolve_or_no_candidate
      have hr := h raw hm
      cases hpr : parseRef raw with
      | none => simp [Option.all]
      | some pr =>
        rw [hpr] at hr
        simp only [Option.all] at hr ⊢
        simp [hr]
  · intro text h
    set y := fix_missing_upload_links fs text with hy
    unfold fix_missing_upload_links fixLinksOrd
    split
    · rfl
    · apply applyRaws_id_of_inert
      intro raw hm
      exact rawInert_of_resolve_or_no_candidate (h raw hm)

/-- Counterexample for C6: on `cxText6` over `cxFs6`, the first repair pass
rewrites `/chat_uploads/a.txt` inside the second reference as collateral of
`replace`, steering it into the directory `a_1.txt_extra` that does exist;
only the second pass then rewrites it to its `b_2.png` sibling, so repair of
the repaired text differs from the repaired text. -/
theorem C6_repair_not_idempotent_cx :
    fix_missing_upload_links cxFs6 (fix_missing_upload_links cxFs6 cxText6) ≠
      fix_missing_upload_links cxFs6 cxText6 := by decide

/-- Witness for C6 (amended): a resolving reference is left untouched, and a
repair whose output resolves is idempotent. -/
theorem C6_repair_identity_witness :
    fix_missing_upload_links [⟨"ok.txt".data, 1⟩] ("see /chat_uploads/ok.txt here".data) =
      "see /chat_uploads/ok.txt here".data ∧
    fix_missing_upload_links [⟨"a_1.txt".data, 3⟩]
        (fix_missing_upload_links [⟨"a_1.txt".data, 3⟩] ("see /chat_uploads/a.txt".data)) =
      fix_missing_upload_links [⟨"a_1.txt".data, 3⟩] ("see /chat_uploads/a.txt".data) :=
  ⟨(C6_repair_identity_and_conditional_idempotence [⟨"ok.txt".data, 1⟩]).1 _ (by decide),
   (C6_repair_identity_and_conditional_idempotence [⟨"a_1.txt".data, 3⟩]).2 _ (by decide)⟩

/-- Counterexample for C9: with both orders of the same two-element reference
set — both orders arise from Python's hash-randomized `set` iteration across
interpreter processes — the repair pass produces different outputs on the
same text and the same snapshot, because the `a` reference also rewrites its
occurrence inside the `a_1` reference. -/
theorem C9_repair_order_dependent_cx :
    fixLinksOrd cxFs9 (matchSet cxText9) cxText9 ≠
      fixLinksOrd cxFs9 (matchSet cxText9).reverse cxText9 ∧
    (matchSet cxText9).reverse.Perm (matchSet cxText9) :=
  ⟨by decide, List.reverse_perm _⟩

/-- Claim C9 (amended): TextLinkRepair mutates nothing (it only reads the
snapshot) and, for a fixed iteration order of the reference set, its output
is a function of the text and the set of files with their mtimes: it is
invariant under reordering of the snapshot listing whenever mtimes are
pairwise distinct.  Only the set-iteration order, which Python fixes per
interpreter process, can change the output (see the counterexample). -/
theorem C9_repair_deterministic_for_fixed_order
    (raws : List Str) (text : Str) (fs1 fs2 : List FSFile)
    (hp : fs1.Perm fs2) (hdist : fs1.Pairwise (fun f g => f.mtime ≠ g.mtime)) :
    fixLinksOrd fs1 raws text = fixLinksOrd fs2 raws text := by
  unfold fixLinksOrd
  split
  · rfl
  · exact applyRaws_perm hp hdist raws text

/-- Witness for C9 (amended): the repaired text is the same over the example
snapshot and its reversed listing. -/
theorem C9_repair_deterministic_witness :
    fixLinksOrd exFsA (matchSet ("get /chat_uploads/a.txt".data))
        ("get /chat_uploads/a.txt".data) =
      fixLinksOrd exFsA.reverse (matchSet ("get /chat_uploads/a.txt".data))
        ("get /chat_uploads/a.txt".data) :=
  C9_repair_deterministic_for_fixed_order _ _ _ _
    (List.reverse_perm exFsA).symm (by decide)

/-- Claim C10: with saved files the committed text carries one
`- /chat_uploads/<file_path>` line per saved file — substituted for the
`__DOWNLOAD_LINKS__` placeholder when the reply contains it, otherwise
appended after the text — and with no saved files the placeholder line is
removed before committing; the committed content is exactly the link-repair
of this assembled text. -/
theorem C10_download_links (savedPaths : List Str) (replyText : Str) :
    (savedPaths ≠ [] → containsSub DOWNLOAD_LINKS_PLACEHOLDER replyText = true →
      buildFinalText savedPaths replyText =
        replaceAll DOWNLOAD_LINKS_PLACEHOLDER (joinNl (savedPaths.map linkLine)) replyText ∧
      ∀ fp ∈ savedPaths,
        containsSub (linkLine fp) (buildFinalText savedPaths replyText) = true) ∧
    (savedPaths ≠ [] → containsSub DOWNLOAD_LINKS_PLACEHOLDER replyText = false →
      buildFinalText savedPaths replyText =
        replyText ++ "\n下載連結:\n".data ++ joinNl (savedPaths.map linkLine) ∧
      ∀ fp ∈ savedPaths,
        containsSub (linkLine fp) (buildFinalText savedPaths replyText) = true) ∧
    (∀ leading,
      containsSub ('\n' :: DOWNLOAD_LINKS_PLACEHOLDER)
        (leading ++ ('\n' :: DOWNLOAD_LINKS_PLACEHOLDER).dropLast) = false →
      buildFinalText [] (leading ++ '\n' :: DOWNLOAD_LINKS_PLACEHOLDER) = leading) ∧
    (∀ fs st m now, st.msg = some m → m.status = .pending →
      ∃ m2, (commit_step fs st replyText savedPaths now).msg = some m2 ∧
        m2.content = fix_missing_upload_links fs (buildFinalText savedPaths replyText)) := by
  refine ⟨?_, ?_, ?_, ?_⟩
  · intro hne hin
    have hemp : savedPaths.isEmpty = false := by
      cases savedPaths with
      | nil => exact absurd rfl hne
      | cons a l => rfl
    have heq : buildFinalText savedPaths replyText =
        replaceAll DOWNLOAD_LINKS_PLACEHOLDER (joinNl (savedPaths.map linkLine)) replyText := by
      simp [buildFinalText, hemp, hin]
    refine ⟨heq, ?_⟩
    intro fp hfp
    rw [heq]
    exact containsSub_replaceAll (by decide) hin
      (containsSub_joinNl (List.mem_map_of_mem linkLine hfp))
  · intro hne hout
    have hemp : savedPaths.isEmpty = false := by
      cases savedPaths with
      | nil => exact absurd rfl hne
      | cons a l => rfl
    have heq : buildFinalText savedPaths replyText =
        replyText ++ "\n下載連結:\n".data ++ joinNl (savedPaths.map linkLine) := by
      simp [buildFinalText, hemp, hout]
    refine ⟨heq, ?_⟩
    intro fp hfp
    rw [heq]
    exact containsSub_append_right _ (containsSub_joinNl (List.mem_map_of_mem linkLine hfp))
  · intro leading h
    have hb : buildFinalText [] (leading ++ '\n' :: DOWNLOAD_LINKS_PLACEHOLDER) =
        replaceAll ('\n' :: DOWNLOAD_LINKS_PLACEHOLDER) []
          (leading ++ '\n' :: DOWNLOAD_LINKS_PLACEHOLDER) := by
      simp [buildFinalText]
    rw [hb]
    exact replaceAll_strip_end h
  · intro fs st m now hm hp
    refine ⟨{ m with
      content := fix_missing_upload_links fs (buildFinalText savedPaths replyText),
      status := .completed, stoppedAt := none }, ?_, rfl⟩
    simp [commit_step, hm, hp]

/-- Witness for C10: the link line of the one saved file appears in the
spliced text, and with no saved files the placeholder line is stripped. -/
theorem C10_download_links_witness :
    containsSub (linkLine ("f_1.txt".data))
      (buildFinalText [("f_1.txt".data)] ("hi\n下載連結:\n__DOWNLOAD_LINKS__".data)) = true ∧
    buildFinalText [] ("hi\n下載連結:".data ++ '\n' :: DOWNLOAD_LINKS_PLACEHOLDER) =
      "hi\n下載連結:".data :=
  ⟨((C10_download_links [("f_1.txt".data)] ("hi\n下載連結:\n__DOWNLOAD_LINKS__".data)).1
      (by decide) (by decide)).2 _ (by decide),
   (C10_download_links [] ("x".data)).2.2.1 ("hi\n下載連結:".data) (by decide)⟩

end SimpleChat
